import Mathlib

/-!
Verification of the collision core of `src/src/BlobDemo.cpp`
(rjsajee/Collision-detection-and-response-algorithm).

The two algorithms under study are:

* `Platform::addContact` (BlobDemo.cpp lines 31-94): the segment contact
  generator, which tests every registered particle against one line segment
  and writes at most `limit` contacts into a caller-supplied buffer;
* `BlobDemo::handleBlobCollision` (BlobDemo.cpp lines 258-292): the pairwise
  impulse resolver, a double loop over all index pairs i < j that applies an
  instantaneous elastic impulse to each overlapping, closing pair.

Floating-point arithmetic of the source is modelled by idealized real
arithmetic over `ℝ`.  The vector primitives come from `coreMath.h`, which is
not among the provided sources; they are modelled from the spec (section 3):
componentwise addition/subtraction, scalar scale, dot product, magnitude
(square root of the squared magnitude) and unit-normalization `v / |v|`.
Unit-normalization of the zero vector is undefined behavior in the source
(IEEE 0/0 = NaN); Lean's total division maps it to the zero vector, and
every theorem that touches this case treats it explicitly.
-/

namespace BlobSim

/-- Modelled from the spec: the 2D vector value type of `coreMath.h`
(`Vector2` with fields `x`, `y`). -/
@[ext]
structure Vector2 where
  x : ℝ
  y : ℝ

namespace Vector2

/-- Modelled from the spec: componentwise vector addition. -/
def add (a b : Vector2) : Vector2 := ⟨a.x + b.x, a.y + b.y⟩

/-- Modelled from the spec: componentwise vector subtraction. -/
def sub (a b : Vector2) : Vector2 := ⟨a.x - b.x, a.y - b.y⟩

/-- Modelled from the spec: scalar scale `v * s`. -/
def smul (a : Vector2) (s : ℝ) : Vector2 := ⟨a.x * s, a.y * s⟩

/-- Modelled from the spec: dot product. -/
def dot (a b : Vector2) : ℝ := a.x * b.x + a.y * b.y

/-- Modelled from the spec: squared magnitude `x*x + y*y`. -/
def squareMagnitude (a : Vector2) : ℝ := a.x * a.x + a.y * a.y

/-- Modelled from the spec: magnitude, the square root of the squared
magnitude. -/
noncomputable def magnitude (a : Vector2) : ℝ := Real.sqrt a.squareMagnitude

/-- Modelled from the spec: unit-normalization `v / |v|`.  On the zero
vector the source divides 0 by 0 (undefined behavior, NaN with IEEE
floats); Lean's total division yields the zero vector there. -/
noncomputable def unit (a : Vector2) : Vector2 :=
  ⟨a.x / a.magnitude, a.y / a.magnitude⟩

end Vector2

/-- Modelled from the spec: the particle record, restricted to the four
fields the collision core reads (`position`, `velocity`, `radius`, `mass`);
the integrator-only fields (acceleration, damping, force accumulator) are
never read by the core and omitted. -/
structure Particle where
  position : Vector2
  velocity : Vector2
  radius : ℝ
  mass : ℝ

/-- Modelled from the spec: the contact record of `pcontacts.h`, restricted
to the fields `Platform::addContact` writes: `contactNormal`, `restitution`,
`penetration`, `particle[0]` and `particle[1]` (the latter is `nullptr` for
particle-vs-segment contacts, hence an `Option`). -/
structure ParticleContact where
  contactNormal : Vector2
  restitution : ℝ
  penetration : ℝ
  particle0 : Particle
  particle1 : Option Particle

/-- The per-particle body of the loop of `Platform::addContact`
(BlobDemo.cpp lines 40-91): tests one particle against the segment from
`start` to `endp` (source field name `end`) and returns the contact it
would write, if any.  The three branches are: projection before the start
point (`projected <= 0`), past the end point (`projected >= platformSqLength`),
and onto the interior.  The platform restitution is the constant `1.0f`
of line 33. -/
noncomputable def contactFor (start endp : Vector2) (particle : Particle) :
    Option ParticleContact :=
  let toParticle := particle.position.sub start
  let lineDirection := endp.sub start
  let projected := toParticle.dot lineDirection
  let platformSqLength := lineDirection.squareMagnitude
  let squareRadius := particle.radius * particle.radius
  if projected ≤ 0 then
    if toParticle.squareMagnitude < squareRadius then
      some { contactNormal := toParticle.unit
             restitution := 1
             penetration := particle.radius - toParticle.magnitude
             particle0 := particle
             particle1 := none }
    else none
  else if projected ≥ platformSqLength then
    let toParticleEnd := particle.position.sub endp
    if toParticleEnd.squareMagnitude < squareRadius then
      some { contactNormal := toParticleEnd.unit
             restitution := 1
             penetration := particle.radius - toParticleEnd.magnitude
             particle0 := particle
             particle1 := none }
    else none
  else
    let distanceToPlatform :=
      toParticle.squareMagnitude - projected * projected / platformSqLength
    if distanceToPlatform < squareRadius then
      let closestPoint := start.add (lineDirection.smul (projected / platformSqLength))
      some { contactNormal := (particle.position.sub closestPoint).unit
             restitution := 1
             penetration := particle.radius - Real.sqrt distanceToPlatform
             particle0 := particle
             particle1 := none }
    else none

/-- The loop of `Platform::addContact` (BlobDemo.cpp lines 36-92): iterates
the registered particles in order, stops as soon as `used >= limit`
(checked before each particle, line 38), and otherwise appends the contact
`contactFor` produces, incrementing `used`.  Returns the final counter
together with the buffer contents written after the starting point. -/
noncomputable def addContactAux (start endp : Vector2) :
    List Particle → Nat → Nat → Nat × List ParticleContact
  | [], used, _ => (used, [])
  | p :: ps, used, limit =>
    if used ≥ limit then (used, [])
    else
      match contactFor start endp p with
      | some c =>
        let r := addContactAux start endp ps (used + 1) limit
        (r.1, c :: r.2)
      | none => addContactAux start endp ps used limit

/-- `Platform::addContact` (BlobDemo.cpp lines 31-94): the generator entry
point, starting with `used = 0`.  The first component is the returned
count, the second the list of contacts written into the buffer. -/
noncomputable def addContact (start endp : Vector2) (particles : List Particle)
    (limit : Nat) : Nat × List ParticleContact :=
  addContactAux start endp particles 0 limit

/-- The pair body of `BlobDemo::handleBlobCollision` (BlobDemo.cpp lines
264-289): tests one pair, and when the circles overlap and the pair is not
separating, applies the elastic impulse (`e = 1.0f`, line 278) to both
velocities.  Returns the updated pair. -/
noncomputable def resolvePair (pi1 pj : Particle) : Particle × Particle :=
  let distanceVec := pj.position.sub pi1.position
  let distance := distanceVec.magnitude
  let combinedRadius := pi1.radius + pj.radius
  if distance < combinedRadius then
    let normal := distanceVec.unit
    let relativeVelocity := pj.velocity.sub pi1.velocity
    let velocityAlongNormal := relativeVelocity.dot normal
    if velocityAlongNormal > 0 then (pi1, pj)
    else
      let e : ℝ := 1
      let m1 := pi1.mass
      let m2 := pj.mass
      let impulse := (-(1 + e) * velocityAlongNormal) / (1 / m1 + 1 / m2)
      let impulseVec := normal.smul impulse
      ({ pi1 with velocity := pi1.velocity.sub (impulseVec.smul (1 / m1)) },
       { pj with velocity := pj.velocity.add (impulseVec.smul (1 / m2)) })
  else (pi1, pj)

/-- The inner loop of `BlobDemo::handleBlobCollision` (BlobDemo.cpp lines
262-289) for a fixed outer particle: resolves it against every later
particle in turn, threading its updated velocity through the loop exactly
as the in-place mutation of `blobs[i]` does. -/
noncomputable def resolveWithAll : Particle → List Particle → Particle × List Particle
  | p, [] => (p, [])
  | p, q :: rest =>
    let r := resolvePair p q
    let r2 := resolveWithAll r.1 rest
    (r2.1, r.2 :: r2.2)

/-- The inner loop leaves the number of remaining particles unchanged. -/
theorem resolveWithAll_length (p : Particle) (ps : List Particle) :
    (resolveWithAll p ps).2.length = ps.length := by
  induction ps generalizing p with
  | nil => rfl
  | cons q rest ih => simpa [resolveWithAll] using ih (resolvePair p q).1

/-- `BlobDemo::handleBlobCollision` (BlobDemo.cpp lines 258-292): the outer
loop over `i`, each iteration resolving `blobs[i]` against all later blobs
(with in-place mutation modelled by threading the updated list). -/
noncomputable def handleBlobCollision : List Particle → List Particle
  | [] => []
  | p :: rest =>
    let r := resolveWithAll p rest
    r.1 :: handleBlobCollision r.2
termination_by ps => ps.length
decreasing_by simp [resolveWithAll_length]

/-- Total linear momentum of a particle collection: the componentwise sum
of `mass * velocity`. -/
def momentum (ps : List Particle) : Vector2 :=
  ⟨(ps.map fun p => p.mass * p.velocity.x).sum,
   (ps.map fun p => p.mass * p.velocity.y).sum⟩

/-- Characterization of the generator loop: starting from counter `used`,
it raises the counter by `min (limit - used) k`, where `k` is the number of
remaining particles that produce a contact, and writes exactly the first
`limit - used` contacts the remaining particles produce, in registration
order. -/
theorem addContactAux_eq (start endp : Vector2) (ps : List Particle)
    (used limit : Nat) :
    addContactAux start endp ps used limit =
      (used + min (limit - used) (ps.countP fun p => (contactFor start endp p).isSome),
       (ps.filterMap (contactFor start endp)).take (limit - used)) := by
  induction ps generalizing used with
  | nil => simp [addContactAux]
  | cons p ps ih =>
    by_cases h : used ≥ limit
    · have hz : limit - used = 0 := Nat.sub_eq_zero_of_le h
      simp [addContactAux, h, hz]
    · have hlt : used < limit := Nat.lt_of_not_le h
      have hsub : limit - used = (limit - (used + 1)) + 1 := by omega
      cases hc : contactFor start endp p with
      | some c =>
        simp only [addContactAux, if_neg h, hc, ih]
        rw [hsub]
        simp [List.countP_cons, hc, Prod.ext_iff]
        omega
      | none =>
        simp only [addContactAux, if_neg h, hc, ih]
        simp [List.countP_cons, List.filterMap_cons, hc]

/-- The number of contacts the particles produce equals the number of
particles for which `contactFor` fires. -/
theorem length_filterMap_contactFor (start endp : Vector2) (ps : List Particle) :
    (ps.filterMap (contactFor start endp)).length
      = ps.countP fun p => (contactFor start endp p).isSome := by
  induction ps with
  | nil => simp
  | cons p ps ih =>
    cases hc : contactFor start endp p <;>
      simp [List.countP_cons, hc, ih]

/-- A contact produced by `contactFor` records the tested particle
unmodified in its `particle[0]` slot. -/
theorem contactFor_particle0 (start endp : Vector2) (p : Particle)
    (c : ParticleContact) (h : contactFor start endp p = some c) :
    c.particle0 = p := by
  simp only [contactFor] at h
  split_ifs at h <;> simp_all <;> exact (congrArg ParticleContact.particle0 h.symm)

/-- C2: for every call `generate(segment, particles, outputBuffer, limit)`,
the returned value equals the number of contacts written into the buffer,
never exceeds `limit`, and equals `min limit k` where `k` is the number of
overlapping particles (so `limit = 0` returns 0 and writes nothing, and
`limit = k` writes at most `k` contacts); the contacts written are those of
the first overlapping particles in registration order. -/
theorem C2_generate_limit_count (start endp : Vector2) (ps : List Particle)
    (limit : Nat) :
    (addContact start endp ps limit).1 = (addContact start endp ps limit).2.length ∧
    (addContact start endp ps limit).1 ≤ limit ∧
    (addContact start endp ps limit).1
      = min limit (ps.countP fun p => (contactFor start endp p).isSome) ∧
    (addContact start endp ps limit).2
      = (ps.filterMap (contactFor start endp)).take limit := by
  have h := addContactAux_eq start endp ps 0 limit
  simp only [Nat.sub_zero, Nat.zero_add] at h
  unfold addContact
  rw [h]
  refine ⟨?_, Nat.min_le_left _ _, rfl, rfl⟩
  simp [List.length_take, length_filterMap_contactFor]

/-- The pair body only rewrites velocities: position, radius and mass of
both particles pass through unchanged. -/
theorem resolvePair_frame (p q : Particle) :
    (resolvePair p q).1.position = p.position ∧
    (resolvePair p q).1.radius = p.radius ∧
    (resolvePair p q).1.mass = p.mass ∧
    (resolvePair p q).2.position = q.position ∧
    (resolvePair p q).2.radius = q.radius ∧
    (resolvePair p q).2.mass = q.mass := by
  simp only [resolvePair]
  split_ifs <;> simp

/-- The inner resolver loop only rewrites velocities. -/
theorem resolveWithAll_frame (p : Particle) (ps : List Particle) :
    (resolveWithAll p ps).1.position = p.position ∧
    (resolveWithAll p ps).1.radius = p.radius ∧
    (resolveWithAll p ps).1.mass = p.mass ∧
    (resolveWithAll p ps).2.map Particle.position = ps.map Particle.position ∧
    (resolveWithAll p ps).2.map Particle.radius = ps.map Particle.radius ∧
    (resolveWithAll p ps).2.map Particle.mass = ps.map Particle.mass := by
  induction ps generalizing p with
  | nil => simp [resolveWithAll]
  | cons q rest ih =>
    obtain ⟨f1, f2, f3, f4, f5, f6⟩ := resolvePair_frame p q
    obtain ⟨g1, g2, g3, g4, g5, g6⟩ := ih (resolvePair p q).1
    simp only [resolveWithAll, List.map_cons]
    exact ⟨g1.trans f1, g2.trans f2, g3.trans f3,
      by rw [f4, g4], by rw [f5, g5], by rw [f6, g6]⟩

/-- The outer resolver loop only rewrites velocities. -/
theorem handleBlobCollision_frame (ps : List Particle) :
    (handleBlobCollision ps).map Particle.position = ps.map Particle.position ∧
    (handleBlobCollision ps).map Particle.radius = ps.map Particle.radius ∧
    (handleBlobCollision ps).map Particle.mass = ps.map Particle.mass := by
  suffices h : ∀ n (qs : List Particle), qs.length ≤ n →
      (handleBlobCollision qs).map Particle.position = qs.map Particle.position ∧
      (handleBlobCollision qs).map Particle.radius = qs.map Particle.radius ∧
      (handleBlobCollision qs).map Particle.mass = qs.map Particle.mass from
    h ps.length ps le_rfl
  intro n
  induction n with
  | zero =>
    intro qs hq
    have hqs : qs = [] := List.eq_nil_of_length_eq_zero (Nat.le_zero.mp hq)
    subst hqs
    simp [handleBlobCollision]
  | succ n ih =>
    intro qs hq
    match qs with
    | [] => simp [handleBlobCollision]
    | p :: rest =>
      have hlen : (resolveWithAll p rest).2.length ≤ n := by
        rw [resolveWithAll_length]
        simpa using hq
      obtain ⟨f1, f2, f3, f4, f5, f6⟩ := resolveWithAll_frame p rest
      obtain ⟨g1, g2, g3⟩ := ih (resolveWithAll p rest).2 hlen
      simp only [handleBlobCollision, List.map_cons]
      exact ⟨by rw [f1, g1, f4], by rw [f2, g2, f5], by rw [f3, g3, f6]⟩

/-- C9: neither core algorithm writes any particle's position, radius or
mass.  The generator is a pure query (in this embedding it returns only the
buffer contents; each emitted contact carries one of the caller's particles
unmodified in `particle[0]`), and the resolver returns a particle list with
positions, radii and masses all unchanged — its only mutation is to
velocities. -/
theorem C9_frame_effects (start endp : Vector2) (ps qs : List Particle)
    (limit : Nat) :
    (∀ c ∈ (addContact start endp ps limit).2, c.particle0 ∈ ps) ∧
    (handleBlobCollision qs).map Particle.position = qs.map Particle.position ∧
    (handleBlobCollision qs).map Particle.radius = qs.map Particle.radius ∧
    (handleBlobCollision qs).map Particle.mass = qs.map Particle.mass := by
  obtain ⟨h1, h2, h3⟩ := handleBlobCollision_frame qs
  refine ⟨?_, h1, h2, h3⟩
  intro c hc
  have haux := addContactAux_eq start endp ps 0 limit
  unfold addContact at hc
  rw [haux] at hc
  simp only at hc
  have hc2 : c ∈ ps.filterMap (contactFor start endp) := List.take_subset _ _ hc
  obtain ⟨p, hp, hfp⟩ := List.mem_filterMap.mp hc2
  rw [contactFor_particle0 start endp p c hfp]
  exact hp

/-- The squared magnitude is a sum of squares, hence nonnegative. -/
theorem squareMagnitude_nonneg (a : Vector2) : 0 ≤ a.squareMagnitude := by
  unfold Vector2.squareMagnitude
  nlinarith [mul_self_nonneg a.x, mul_self_nonneg a.y]

/-- The magnitude squares back to the squared magnitude. -/
theorem magnitude_mul_self (a : Vector2) :
    a.magnitude * a.magnitude = a.squareMagnitude :=
  Real.mul_self_sqrt (squareMagnitude_nonneg a)

/-- Over the reals, the squared magnitude vanishes only on the zero
vector. -/
theorem squareMagnitude_eq_zero_iff (a : Vector2) :
    a.squareMagnitude = 0 ↔ a = ⟨0, 0⟩ := by
  unfold Vector2.squareMagnitude
  constructor
  · intro h
    have hx : a.x = 0 := by nlinarith [mul_self_nonneg a.x, mul_self_nonneg a.y]
    have hy : a.y = 0 := by nlinarith [mul_self_nonneg a.x, mul_self_nonneg a.y]
    ext <;> simp [hx, hy]
  · intro h
    rw [h]
    norm_num

/-- Unit-normalization of a vector of nonzero squared magnitude yields a
vector of squared magnitude one. -/
theorem unit_squareMagnitude (a : Vector2) (h : a.squareMagnitude ≠ 0) :
    (a.unit).squareMagnitude = 1 := by
  have hnn := squareMagnitude_nonneg a
  have hpos : 0 < a.squareMagnitude := lt_of_le_of_ne hnn (Ne.symm h)
  have hm : 0 < a.magnitude := Real.sqrt_pos.mpr hpos
  have hms := magnitude_mul_self a
  unfold Vector2.unit Vector2.squareMagnitude at *
  field_simp
  nlinarith [hms]

/-- Unit-normalization of a vector of nonzero squared magnitude yields a
unit-length vector. -/
theorem unit_magnitude (a : Vector2) (h : a.squareMagnitude ≠ 0) :
    (a.unit).magnitude = 1 := by
  unfold Vector2.magnitude
  rw [unit_squareMagnitude a h, Real.sqrt_one]

/-- Modelled from the spec: the impulse update the spec attributes to the
resolver (section 4.2, steps 5-6): `impulseMagnitude = -(1 + e) *
closingSpeed / (1/m_i + 1/m_j)` with `e = 1`, `impulseVector = normal *
impulseMagnitude`, then `velocity(i) -= impulseVector / m_i` and
`velocity(j) += impulseVector / m_j` (vector-by-scalar division taken
componentwise). -/
noncomputable def specImpulseResolve (p q : Particle) : Particle × Particle :=
  let normal := (q.position.sub p.position).unit
  let closingSpeed := (q.velocity.sub p.velocity).dot normal
  let e : ℝ := 1
  let impulseMagnitude := -(1 + e) * closingSpeed / (1 / p.mass + 1 / q.mass)
  let impulseVector := normal.smul impulseMagnitude
  ({ p with velocity := ⟨p.velocity.x - impulseVector.x / p.mass,
                         p.velocity.y - impulseVector.y / p.mass⟩ },
   { q with velocity := ⟨q.velocity.x + impulseVector.x / q.mass,
                         q.velocity.y + impulseVector.y / q.mass⟩ })

/-- C1: for every pair whose distance between centers is strictly below the
sum of the radii and whose closing speed is not positive, the resolver
performs exactly the spec's impulse update: `velocity(i) -=
impulseVector/m_i` and `velocity(j) += impulseVector/m_j` with
`impulseVector = normal * impulseMagnitude` and `impulseMagnitude = -(1+e)
* closingSpeed / (1/m_i + 1/m_j)`, `e = 1`. -/
theorem C1_impulse_formula (p q : Particle)
    (hov : (q.position.sub p.position).magnitude < p.radius + q.radius)
    (hcl : (q.velocity.sub p.velocity).dot ((q.position.sub p.position).unit) ≤ 0) :
    resolvePair p q = specImpulseResolve p q := by
  simp only [resolvePair, specImpulseResolve]
  rw [if_pos hov, if_neg (not_lt.mpr hcl)]
  refine Prod.ext ?_ ?_ <;>
    · simp only [Particle.mk.injEq, Vector2.sub, Vector2.add, Vector2.smul,
        Vector2.mk.injEq, and_true, true_and]
      constructor <;> ring

/-- Concrete witness particles for the resolver claims: two unit-radius,
unit-mass particles one length-unit apart, approaching head-on with unit
speed. -/
noncomputable def w1p : Particle := ⟨⟨0, 0⟩, ⟨1, 0⟩, 1, 1⟩

/-- Second concrete witness particle (see `w1p`). -/
noncomputable def w1q : Particle := ⟨⟨1, 0⟩, ⟨-1, 0⟩, 1, 1⟩

/-- Witness for C1 at the concrete pair `w1p`, `w1q`. -/
theorem C1_impulse_formula_witness :
    resolvePair w1p w1q = specImpulseResolve w1p w1q := by
  apply C1_impulse_formula
  · simp only [w1p, w1q, Vector2.sub, Vector2.magnitude, Vector2.squareMagnitude]
    norm_num [Real.sqrt_one]
  · simp only [w1p, w1q, Vector2.sub, Vector2.dot, Vector2.unit, Vector2.magnitude,
      Vector2.squareMagnitude]
    norm_num [Real.sqrt_one]

/-- C6: for every pair of overlapping particles whose closing speed is
strictly positive (already moving apart), the resolver leaves both
velocities unchanged (BlobDemo.cpp line 276: `continue`). -/
theorem C6_separating_untouched (p q : Particle)
    (hov : (q.position.sub p.position).magnitude < p.radius + q.radius)
    (hsep : 0 < (q.velocity.sub p.velocity).dot ((q.position.sub p.position).unit)) :
    resolvePair p q = (p, q) := by
  simp only [resolvePair]
  rw [if_pos hov, if_pos hsep]

/-- Concrete particle for the C6 witness: at the origin, moving left. -/
noncomputable def w6p : Particle := ⟨⟨0, 0⟩, ⟨-1, 0⟩, 1, 1⟩

/-- Concrete particle for the C6 witness: one unit right, moving right. -/
noncomputable def w6q : Particle := ⟨⟨1, 0⟩, ⟨1, 0⟩, 1, 1⟩

/-- Witness for C6: the overlapping separating pair `w6p`, `w6q` is left
unchanged. -/
theorem C6_separating_untouched_witness : resolvePair w6p w6q = (w6p, w6q) := by
  apply C6_separating_untouched
  · simp only [w6p, w6q, Vector2.sub, Vector2.magnitude, Vector2.squareMagnitude]
    norm_num [Real.sqrt_one]
  · simp only [w6p, w6q, Vector2.sub, Vector2.dot, Vector2.unit, Vector2.magnitude,
      Vector2.squareMagnitude]
    norm_num [Real.sqrt_one]

/-- C5: two overlapping particles of equal (nonzero) mass approaching
exactly head-on along the line of centers — `p` moving with speed `v`
toward `q` and `q` with speed `v` toward `p` — exchange their velocities
under one application of the pair resolver with restitution 1. -/
theorem C5_equal_mass_swap (p q : Particle) (m v : ℝ)
    (hmp : p.mass = m) (hmq : q.mass = m) (hm : 0 < m)
    (hne : (q.position.sub p.position).squareMagnitude ≠ 0)
    (hov : (q.position.sub p.position).magnitude < p.radius + q.radius)
    (hv : 0 ≤ v)
    (hvp : p.velocity = ((q.position.sub p.position).unit).smul v)
    (hvq : q.velocity = ((q.position.sub p.position).unit).smul (-v)) :
    (resolvePair p q).1.velocity = q.velocity ∧
    (resolvePair p q).2.velocity = p.velocity := by
  have husq := unit_squareMagnitude _ hne
  have hdot : (q.velocity.sub p.velocity).dot ((q.position.sub p.position).unit)
      = -2 * v * ((q.position.sub p.position).unit).squareMagnitude := by
    rw [hvp, hvq]
    simp only [Vector2.sub, Vector2.dot, Vector2.smul, Vector2.squareMagnitude]
    ring
  have hnot : ¬ ((q.velocity.sub p.velocity).dot ((q.position.sub p.position).unit) > 0) := by
    rw [hdot, husq]
    nlinarith
  simp only [resolvePair]
  rw [if_pos hov, if_neg hnot]
  rw [hdot, husq, hmp, hmq, hvp, hvq]
  constructor <;>
    · ext <;>
        · simp only [Vector2.sub, Vector2.add, Vector2.smul]
          field_simp
          ring

/-- Concrete particle for the C5 witness: at the origin, moving right with
unit speed, unit mass and radius. -/
noncomputable def w5p : Particle := ⟨⟨0, 0⟩, ⟨1, 0⟩, 1, 1⟩

/-- Concrete particle for the C5 witness: one unit right of `w5p`, moving
left with unit speed, unit mass and radius. -/
noncomputable def w5q : Particle := ⟨⟨1, 0⟩, ⟨-1, 0⟩, 1, 1⟩

/-- Witness for C5: the overlapping head-on equal-mass pair `w5p`, `w5q`
ends with exactly exchanged velocities. -/
theorem C5_equal_mass_swap_witness :
    (resolvePair w5p w5q).1.velocity = w5q.velocity ∧
    (resolvePair w5p w5q).2.velocity = w5p.velocity := by
  refine C5_equal_mass_swap w5p w5q 1 1 rfl rfl one_pos ?_ ?_ zero_le_one ?_ ?_
  · simp only [w5p, w5q, Vector2.sub, Vector2.squareMagnitude]
    norm_num
  · simp only [w5p, w5q, Vector2.sub, Vector2.magnitude, Vector2.squareMagnitude]
    norm_num [Real.sqrt_one]
  · simp only [w5p, w5q, Vector2.sub, Vector2.unit, Vector2.smul, Vector2.magnitude,
      Vector2.squareMagnitude, Vector2.mk.injEq]
    norm_num [Real.sqrt_one]
  · simp only [w5p, w5q, Vector2.sub, Vector2.unit, Vector2.smul, Vector2.magnitude,
      Vector2.squareMagnitude, Vector2.mk.injEq]
    norm_num [Real.sqrt_one]

/-- Algebraic core of momentum conservation: the two impulse applications
`-A/m1` and `+A/m2` change the summed `mass * velocity` by `-A + A = 0`,
whatever the impulse component `A` is. -/
theorem impulse_cancel (m1 m2 v1 v2 A : ℝ) (h1 : m1 ≠ 0) (h2 : m2 ≠ 0) :
    m1 * (v1 - A * (1 / m1)) + m2 * (v2 + A * (1 / m2)) = m1 * v1 + m2 * v2 := by
  field_simp
  ring

/-- One pair resolution conserves the summed `mass * velocity` of the two
particles, componentwise (masses nonzero). -/
theorem resolvePair_momentum (p q : Particle) (hp : p.mass ≠ 0) (hq : q.mass ≠ 0) :
    (resolvePair p q).1.mass * (resolvePair p q).1.velocity.x
        + (resolvePair p q).2.mass * (resolvePair p q).2.velocity.x
      = p.mass * p.velocity.x + q.mass * q.velocity.x ∧
    (resolvePair p q).1.mass * (resolvePair p q).1.velocity.y
        + (resolvePair p q).2.mass * (resolvePair p q).2.velocity.y
      = p.mass * p.velocity.y + q.mass * q.velocity.y := by
  simp only [resolvePair]
  split_ifs
  · exact ⟨rfl, rfl⟩
  · simp only [Vector2.sub, Vector2.add, Vector2.smul]
    exact ⟨impulse_cancel p.mass q.mass p.velocity.x q.velocity.x _ hp hq,
      impulse_cancel p.mass q.mass p.velocity.y q.velocity.y _ hp hq⟩
  · exact ⟨rfl, rfl⟩

/-- The inner resolver loop conserves the total momentum of the outer
particle together with the remaining particles (masses nonzero). -/
theorem resolveWithAll_momentum (p : Particle) (ps : List Particle)
    (hp : p.mass ≠ 0) (hps : ∀ q ∈ ps, q.mass ≠ 0) :
    momentum ((resolveWithAll p ps).1 :: (resolveWithAll p ps).2)
      = momentum (p :: ps) := by
  induction ps generalizing p with
  | nil => simp [resolveWithAll]
  | cons q rest ih =>
    have hq : q.mass ≠ 0 := hps q (by simp)
    have hrest : ∀ r ∈ rest, r.mass ≠ 0 := fun r hr => hps r (by simp [hr])
    obtain ⟨f1, f2, f3, f4, f5, f6⟩ := resolvePair_frame p q
    have hp1 : (resolvePair p q).1.mass ≠ 0 := by rw [f3]; exact hp
    obtain ⟨hx, hy⟩ := resolvePair_momentum p q hp hq
    have hih := ih (resolvePair p q).1 hp1 hrest
    simp only [resolveWithAll, momentum, List.map_cons, List.sum_cons,
      Vector2.mk.injEq] at hih ⊢
    constructor
    · linarith [hih.1, hx]
    · linarith [hih.2, hy]

/-- The full resolver run conserves total momentum (masses nonzero). -/
theorem handleBlobCollision_momentum (ps : List Particle)
    (hm : ∀ p ∈ ps, p.mass ≠ 0) :
    momentum (handleBlobCollision ps) = momentum ps := by
  suffices h : ∀ n (qs : List Particle), qs.length ≤ n → (∀ p ∈ qs, p.mass ≠ 0) →
      momentum (handleBlobCollision qs) = momentum qs from
    h ps.length ps le_rfl hm
  intro n
  induction n with
  | zero =>
    intro qs hq _
    have hqs : qs = [] := List.eq_nil_of_length_eq_zero (Nat.le_zero.mp hq)
    subst hqs
    simp [handleBlobCollision]
  | succ n ih =>
    intro qs hq hqm
    match qs with
    | [] => simp [handleBlobCollision]
    | p :: rest =>
      have hlen : (resolveWithAll p rest).2.length ≤ n := by
        rw [resolveWithAll_length]
        simpa using hq
      have hrest : ∀ r ∈ rest, r.mass ≠ 0 := fun r hr => hqm r (by simp [hr])
      obtain ⟨f1, f2, f3, f4, f5, f6⟩ := resolveWithAll_frame p rest
      have hmass : ∀ r ∈ (resolveWithAll p rest).2, r.mass ≠ 0 := by
        intro r hr
        have hmem : r.mass ∈ (resolveWithAll p rest).2.map Particle.mass :=
          List.mem_map_of_mem _ hr
        rw [f6] at hmem
        obtain ⟨r0, hr0, hrm⟩ := List.mem_map.mp hmem
        rw [← hrm]
        exact hrest r0 hr0
      have hih := ih (resolveWithAll p rest).2 hlen hmass
      have hrw := resolveWithAll_momentum p rest (hqm p (by simp)) hrest
      simp only [handleBlobCollision]
      simp only [momentum, List.map_cons, List.sum_cons, Vector2.mk.injEq] at hih hrw ⊢
      constructor
      · linarith [hih.1, hrw.1]
      · linarith [hih.2, hrw.2]

/-- C10: one full resolver run conserves total linear momentum: with
positive masses and no coincident centers among colliding pairs, the sum
over all particles of `mass * velocity` is the same before and after. -/
theorem C10_momentum_conserved (ps : List Particle)
    (hm : ∀ p ∈ ps, 0 < p.mass)
    (_hsep : ps.Pairwise fun p q =>
      (q.position.sub p.position).magnitude < p.radius + q.radius →
        p.position ≠ q.position) :
    momentum (handleBlobCollision ps) = momentum ps :=
  handleBlobCollision_momentum ps fun p hp => (hm p hp).ne'

/-- Concrete particle for the C10 witness: at the origin, moving right. -/
noncomputable def w10a : Particle := ⟨⟨0, 0⟩, ⟨1, 0⟩, 1, 1⟩

/-- Concrete particle for the C10 witness: one unit right, moving left. -/
noncomputable def w10b : Particle := ⟨⟨1, 0⟩, ⟨-1, 0⟩, 1, 1⟩

/-- Witness for C10 on a colliding two-particle system with distinct
centers. -/
theorem C10_momentum_conserved_witness :
    momentum (handleBlobCollision [w10a, w10b]) = momentum [w10a, w10b] := by
  apply C10_momentum_conserved
  · intro p hp
    simp only [List.mem_cons, List.mem_singleton, List.not_mem_nil, or_false] at hp
    rcases hp with h | h <;> subst h <;> norm_num [w10a, w10b]
  · refine List.Pairwise.cons ?_ (List.pairwise_singleton _ _)
    intro q hq
    simp only [List.mem_singleton] at hq
    subst hq
    intro _
    simp only [w10a, w10b, ne_eq, Vector2.mk.injEq]
    norm_num

/-- Vector subtraction vanishes exactly on equal vectors. -/
theorem sub_eq_zero_iff (a b : Vector2) : a.sub b = ⟨0, 0⟩ ↔ a = b := by
  constructor
  · intro h
    have hx := congrArg Vector2.x h
    have hy := congrArg Vector2.y h
    simp only [Vector2.sub] at hx hy
    ext
    · linarith
    · linarith
  · intro h
    rw [h]
    ext <;> simp [Vector2.sub]

/-- Subtracting a translated point equals subtracting in two steps. -/
theorem sub_add_dist (p s q : Vector2) : p.sub (s.add q) = (p.sub s).sub q := by
  ext <;> (simp only [Vector2.sub, Vector2.add]; ring)

/-- The squared distance from `a` to its projection `d * (a·d / |d|²)`
onto the line through `d` is `|a|² - (a·d)² / |d|²` — the quantity the
interior branch of `Platform::addContact` computes (line 79). -/
theorem interior_dist_identity (a d : Vector2) (hL : d.squareMagnitude ≠ 0) :
    (a.sub (d.smul (a.dot d / d.squareMagnitude))).squareMagnitude
      = a.squareMagnitude - a.dot d * a.dot d / d.squareMagnitude := by
  have hL2 : d.x * d.x + d.y * d.y ≠ 0 := by
    simpa [Vector2.squareMagnitude] using hL
  simp only [Vector2.sub, Vector2.smul, Vector2.squareMagnitude, Vector2.dot]
  field_simp
  ring

/-- C7: a particle whose center is strictly farther than its radius from
every point of the segment (both endpoints included) produces no contact
(radius nonnegative, per the spec's standing invariant). -/
theorem C7_no_false_positive (start endp : Vector2) (p : Particle)
    (hr : 0 ≤ p.radius)
    (h : ∀ u : ℝ, 0 ≤ u → u ≤ 1 →
      p.radius < (p.position.sub (start.add ((endp.sub start).smul u))).magnitude) :
    contactFor start endp p = none := by
  have hsq : ∀ w : Vector2, p.radius < w.magnitude →
      ¬ (w.squareMagnitude < p.radius * p.radius) := by
    intro w hw
    have hm := magnitude_mul_self w
    nlinarith [hw, hr, hm]
  simp only [contactFor]
  by_cases hb1 : (p.position.sub start).dot (endp.sub start) ≤ 0
  · rw [if_pos hb1]
    have h0 := h 0 le_rfl zero_le_one
    have hpt : start.add ((endp.sub start).smul 0) = start := by
      ext <;> simp [Vector2.add, Vector2.sub, Vector2.smul]
    rw [hpt] at h0
    rw [if_neg (hsq _ h0)]
  · rw [if_neg hb1]
    by_cases hb2 : (p.position.sub start).dot (endp.sub start)
        ≥ (endp.sub start).squareMagnitude
    · rw [if_pos hb2]
      have h1 := h 1 zero_le_one le_rfl
      have hpt : start.add ((endp.sub start).smul 1) = endp := by
        ext <;> (simp only [Vector2.add, Vector2.sub, Vector2.smul]; ring)
      rw [hpt] at h1
      rw [if_neg (hsq _ h1)]
    · rw [if_neg hb2]
      have ht : 0 < (p.position.sub start).dot (endp.sub start) := lt_of_not_le hb1
      have hLne : (endp.sub start).squareMagnitude ≠ 0 := by
        intro hL0
        have hz : endp.sub start = ⟨0, 0⟩ := (squareMagnitude_eq_zero_iff _).mp hL0
        rw [hz] at ht
        simp [Vector2.dot] at ht
      have hLpos : 0 < (endp.sub start).squareMagnitude :=
        lt_of_le_of_ne (squareMagnitude_nonneg _) (Ne.symm hLne)
      have htL : (p.position.sub start).dot (endp.sub start)
          < (endp.sub start).squareMagnitude := lt_of_not_le hb2
      have hu0 : 0 ≤ (p.position.sub start).dot (endp.sub start)
          / (endp.sub start).squareMagnitude := le_of_lt (div_pos ht hLpos)
      have hu1 : (p.position.sub start).dot (endp.sub start)
          / (endp.sub start).squareMagnitude ≤ 1 :=
        le_of_lt ((div_lt_one hLpos).mpr htL)
      have hi := h _ hu0 hu1
      rw [sub_add_dist] at hi
      have hineq := hsq _ hi
      rw [interior_dist_identity _ _ hLne] at hineq
      rw [if_neg hineq]

/-- Concrete particle for the C7 witness: radius 1, centered five units
above the segment from (0,0) to (1,0). -/
noncomputable def w7p : Particle := ⟨⟨0, 5⟩, ⟨0, 0⟩, 1, 1⟩

/-- Witness for C7: the distant particle `w7p` produces no contact. -/
theorem C7_no_false_positive_witness :
    contactFor ⟨0, 0⟩ ⟨1, 0⟩ w7p = none := by
  apply C7_no_false_positive
  · norm_num [w7p]
  · intro u hu0 hu1
    have key : ∀ X : ℝ, 25 ≤ X → (1 : ℝ) < Real.sqrt X := by
      intro X hX
      have h5 : Real.sqrt 25 ≤ Real.sqrt X := Real.sqrt_le_sqrt hX
      have h25 : Real.sqrt 25 = 5 := by
        rw [show (25 : ℝ) = 5 ^ 2 by norm_num, Real.sqrt_sq (by norm_num)]
      linarith [h25 ▸ h5]
    simp only [w7p, Vector2.add, Vector2.sub, Vector2.smul, Vector2.magnitude,
      Vector2.squareMagnitude]
    apply key
    nlinarith [mul_self_nonneg u]

/-- C3 (amended): every contact the generator emits has nonnegative
penetration (for the positive radius the spec's invariant guarantees); and
whenever the particle's center does not lie on the closed segment, the
emitted `contactNormal` is unit length.  As literally stated the claim
fails: a particle centered exactly on the segment still yields a contact,
whose normal is the normalization of the zero vector (undefined in the
source, the zero vector here) — see the counterexample. -/
theorem C3_emitted_contact_invariants (start endp : Vector2) (p : Particle)
    (c : ParticleContact) (hr : 0 < p.radius)
    (hc : contactFor start endp p = some c) :
    0 ≤ c.penetration ∧
    ((∀ u : ℝ, 0 ≤ u → u ≤ 1 →
        p.position ≠ start.add ((endp.sub start).smul u)) →
      c.contactNormal.magnitude = 1) := by
  have hpen : ∀ w : Vector2, w.squareMagnitude < p.radius * p.radius →
      0 ≤ p.radius - w.magnitude := by
    intro w hw
    have hm := magnitude_mul_self w
    have hnn := Real.sqrt_nonneg w.squareMagnitude
    nlinarith [hm, hw, hr, hnn]
  have hu : ∀ w : Vector2, w ≠ ⟨0, 0⟩ → (w.unit).magnitude = 1 := by
    intro w hw
    refine unit_magnitude w fun h0 => hw ((squareMagnitude_eq_zero_iff w).mp h0)
  simp only [contactFor] at hc
  by_cases hb1 : (p.position.sub start).dot (endp.sub start) ≤ 0
  · rw [if_pos hb1] at hc
    by_cases hb2 : (p.position.sub start).squareMagnitude < p.radius * p.radius
    · rw [if_pos hb2] at hc
      obtain rfl := Option.some.inj hc
      refine ⟨hpen _ hb2, fun hfar => ?_⟩
      apply hu
      intro hz
      have hps : p.position = start := (sub_eq_zero_iff _ _).mp hz
      refine hfar 0 le_rfl zero_le_one ?_
      rw [hps]
      ext <;> simp [Vector2.add, Vector2.sub, Vector2.smul]
    · rw [if_neg hb2] at hc
      exact Option.noConfusion hc
  · rw [if_neg hb1] at hc
    by_cases hb3 : (p.position.sub start).dot (endp.sub start)
        ≥ (endp.sub start).squareMagnitude
    · rw [if_pos hb3] at hc
      by_cases hb4 : (p.position.sub endp).squareMagnitude < p.radius * p.radius
      · rw [if_pos hb4] at hc
        obtain rfl := Option.some.inj hc
        refine ⟨hpen _ hb4, fun hfar => ?_⟩
        apply hu
        intro hz
        have hps : p.position = endp := (sub_eq_zero_iff _ _).mp hz
        refine hfar 1 zero_le_one le_rfl ?_
        rw [hps]
        ext <;> (simp only [Vector2.add, Vector2.sub, Vector2.smul]; ring)
      · rw [if_neg hb4] at hc
        exact Option.noConfusion hc
    · rw [if_neg hb3] at hc
      have ht : 0 < (p.position.sub start).dot (endp.sub start) := lt_of_not_le hb1
      have hLne : (endp.sub start).squareMagnitude ≠ 0 := by
        intro hL0
        have hz : endp.sub start = ⟨0, 0⟩ := (squareMagnitude_eq_zero_iff _).mp hL0
        rw [hz] at ht
        simp [Vector2.dot] at ht
      have hLpos : 0 < (endp.sub start).squareMagnitude :=
        lt_of_le_of_ne (squareMagnitude_nonneg _) (Ne.symm hLne)
      have htL : (p.position.sub start).dot (endp.sub start)
          < (endp.sub start).squareMagnitude := lt_of_not_le hb3
      by_cases hb5 : (p.position.sub start).squareMagnitude
          - (p.position.sub start).dot (endp.sub start)
            * (p.position.sub start).dot (endp.sub start)
            / (endp.sub start).squareMagnitude < p.radius * p.radius
      · rw [if_pos hb5] at hc
        obtain rfl := Option.some.inj hc
        have hs := (Real.sqrt_lt' hr).mpr (by rw [pow_two]; exact hb5)
        refine ⟨sub_nonneg.mpr hs.le, fun hfar => ?_⟩
        apply hu
        intro hz
        have hps := (sub_eq_zero_iff _ _).mp hz
        have hu0 : 0 ≤ (p.position.sub start).dot (endp.sub start)
            / (endp.sub start).squareMagnitude := le_of_lt (div_pos ht hLpos)
        have hu1 : (p.position.sub start).dot (endp.sub start)
            / (endp.sub start).squareMagnitude ≤ 1 :=
          le_of_lt ((div_lt_one hLpos).mpr htL)
        exact hfar _ hu0 hu1 hps
      · rw [if_neg hb5] at hc
        exact Option.noConfusion hc

/-- Degenerate particle for the C3 counterexample: positive radius,
centered exactly at the segment start point. -/
noncomputable def c3degp : Particle := ⟨⟨0, 0⟩, ⟨0, 0⟩, 1, 1⟩

/-- Counterexample to C3 as literally stated: on the segment from (0,0) to
(1,0), the positive-radius particle `c3degp` centered exactly at the
segment start still gets a contact emitted, and that contact's normal is
the normalization of the zero vector — its magnitude is 0, not 1. -/
theorem C3_counterexample :
    0 < c3degp.radius ∧
    contactFor ⟨0, 0⟩ ⟨1, 0⟩ c3degp = some ⟨⟨0, 0⟩, 1, 1, c3degp, none⟩ ∧
    (Vector2.magnitude ⟨0, 0⟩ ≠ 1) := by
  refine ⟨by norm_num [c3degp], ?_, ?_⟩
  · simp only [contactFor, c3degp, Vector2.sub, Vector2.dot, Vector2.squareMagnitude,
      Vector2.unit, Vector2.magnitude, ParticleContact.mk.injEq, Vector2.mk.injEq]
    norm_num [Real.sqrt_zero]
  · simp only [Vector2.magnitude, Vector2.squareMagnitude]
    norm_num [Real.sqrt_zero]

/-- Witness for the amended C3 at a concrete interior-branch contact:
segment from (0,0) to (4,0), radius-2 particle at (2,1). -/
noncomputable def w3p : Particle := ⟨⟨2, 1⟩, ⟨0, 0⟩, 2, 1⟩

/-- The contact the generator emits for `w3p`: normal (0,1), penetration 1. -/
noncomputable def w3c : ParticleContact := ⟨⟨0, 1⟩, 1, 1, w3p, none⟩

/-- The generator emits exactly `w3c` for `w3p`. -/
theorem contactFor_w3p : contactFor ⟨0, 0⟩ ⟨4, 0⟩ w3p = some w3c := by
  simp only [contactFor, w3p, w3c, Vector2.sub, Vector2.dot, Vector2.squareMagnitude,
    Vector2.add, Vector2.smul, Vector2.unit, Vector2.magnitude,
    ParticleContact.mk.injEq, Vector2.mk.injEq]
  norm_num [Real.sqrt_one]

/-- Witness for the amended C3: the emitted contact `w3c` has nonnegative
penetration and a unit-length normal. -/
theorem C3_emitted_contact_invariants_witness :
    0 ≤ w3c.penetration ∧ w3c.contactNormal.magnitude = 1 := by
  have h := C3_emitted_contact_invariants ⟨0, 0⟩ ⟨4, 0⟩ w3p w3c
    (by norm_num [w3p]) contactFor_w3p
  refine ⟨h.1, h.2 ?_⟩
  intro u hu0 hu1 heq
  have hy := congrArg Vector2.y heq
  simp [w3p, Vector2.add, Vector2.sub, Vector2.smul] at hy

/-- The particle of the spec's concrete scenario (C4): radius 3 at
position (0,-1), velocity (0,-10); mass is irrelevant to the generator. -/
noncomputable def c4p : Particle := ⟨⟨0, -1⟩, ⟨0, -10⟩, 3, 1⟩

/-- Evaluating the generator on the scenario particle: its center lies on
the segment interior (the closest point is the center itself), so the
emitted contact has penetration `3 - 0 = 3` and its normal is the
normalization of the zero vector (the zero vector under total division). -/
theorem contactFor_c4p :
    contactFor ⟨0, 0⟩ ⟨0, -50⟩ c4p = some ⟨⟨0, 0⟩, 1, 3, c4p, none⟩ := by
  simp only [contactFor, c4p, Vector2.sub, Vector2.dot, Vector2.squareMagnitude,
    Vector2.add, Vector2.smul, Vector2.unit, Vector2.magnitude,
    ParticleContact.mk.injEq, Vector2.mk.injEq]
  norm_num [Real.sqrt_zero]

/-- Counterexample to C4 as stated: in the spec's scenario the emitted
contact has penetration 3, not 2, and its normal is the zero vector, not
(0,1). -/
theorem C4_counterexample :
    contactFor ⟨0, 0⟩ ⟨0, -50⟩ c4p = some ⟨⟨0, 0⟩, 1, 3, c4p, none⟩ ∧
    (3 : ℝ) ≠ 2 ∧ ((⟨0, 0⟩ : Vector2) ≠ ⟨0, 1⟩) := by
  refine ⟨contactFor_c4p, by norm_num, ?_⟩
  intro h
  have hy := congrArg Vector2.y h
  norm_num at hy

/-- C4 (amended): for the segment from (0,0) to (0,-50) and the scenario
particle (radius 3 at (0,-1), velocity (0,-10)), the generator emits
exactly one contact — whose penetration is 3 and whose normal is the
normalization of the zero vector, because the particle's center lies on
the segment at distance 0. -/
theorem C4_scenario (limit : Nat) (hl : 1 ≤ limit) :
    (addContact ⟨0, 0⟩ ⟨0, -50⟩ [c4p] limit).1 = 1 ∧
    (addContact ⟨0, 0⟩ ⟨0, -50⟩ [c4p] limit).2
      = [⟨⟨0, 0⟩, 1, 3, c4p, none⟩] := by
  obtain ⟨k, rfl⟩ : ∃ k, limit = k + 1 := ⟨limit - 1, by omega⟩
  have h := addContactAux_eq ⟨0, 0⟩ ⟨0, -50⟩ [c4p] 0 (k + 1)
  unfold addContact
  rw [h]
  simp [contactFor_c4p]

/-- Witness for the amended C4, at buffer limit 3. -/
theorem C4_scenario_witness :
    (addContact ⟨0, 0⟩ ⟨0, -50⟩ [c4p] 3).1 = 1 ∧
    (addContact ⟨0, 0⟩ ⟨0, -50⟩ [c4p] 3).2 = [⟨⟨0, 0⟩, 1, 3, c4p, none⟩] :=
  C4_scenario 3 (by norm_num)

/-- First particle of the C8 failing input: unit radius and mass, at the
origin. -/
noncomputable def c8p : Particle := ⟨⟨0, 0⟩, ⟨0, 0⟩, 1, 1⟩

/-- Second particle of the C8 failing input: exactly coincident center
with `c8p`. -/
noncomputable def c8q : Particle := ⟨⟨0, 0⟩, ⟨1, 0⟩, 1, 1⟩

/-- C8 failing-input evaluation: with exactly coincident centers the pair
is classified as colliding (distance 0 is below the radius sum), and the
normal the resolver then computes — `distanceVec.unit` at BlobDemo.cpp
line 271 — is the normalization of the zero vector, of magnitude 0.  The
code has no fixed-default-normal fallback: with IEEE floats the division
0/0 yields NaN; Lean's total division yields the zero vector. -/
theorem C8_zero_normal_at_coincident_centers :
    (c8q.position.sub c8p.position).magnitude < c8p.radius + c8q.radius ∧
    (c8q.position.sub c8p.position).unit = ⟨0, 0⟩ ∧
    (Vector2.magnitude ⟨0, 0⟩ = 0) := by
  refine ⟨?_, ?_, ?_⟩
  · simp only [c8p, c8q, Vector2.sub, Vector2.magnitude, Vector2.squareMagnitude]
    norm_num [Real.sqrt_zero]
  · simp only [c8p, c8q, Vector2.sub, Vector2.unit, Vector2.magnitude,
      Vector2.squareMagnitude, Vector2.mk.injEq]
    norm_num [Real.sqrt_zero]
  · simp only [Vector2.magnitude, Vector2.squareMagnitude]
    norm_num [Real.sqrt_zero]

end BlobSim
